import Mathlib

/-!
# cloudmonitoring-dig: cache, merged dashboard list and URL resolution

Shallow embedding of `main.go`.

* Go strings are modelled as Lean strings (sequences of Unicode characters);
  `fmt.Sprintf` with `%s` verbs is string concatenation.
* The pattern `r` is a sequence of items run by a backtracking matcher with
  the leftmost-first rule of `regexp`.
* The calls that leave the program (`os.Stat`, `os.MkdirAll`, `os.Create`, the
  `gcloud` command, `ioutil.ReadFile`, `fuzzyfinder.Find`) are answered by a
  `World`; `log.Fatal` and a run-time panic are outcomes of the run; what the
  program logs is not modelled.
* `json.Unmarshal` is a reader of JSON text followed by the decoding of the
  document into `[]*Dashboard`; a nil pointer is `none`.
-/

namespace CloudMonitoringDig

/-! ## The regular expression `r` (main.go, line 26) -/

/-- One item of a regular expression that is a plain sequence of items: a
literal character, a greedy `+` repetition of a character class given by its
ranges, or the end-of-text assertion `$` (no multi-line flag). -/
inductive Inst where
  | lit (c : Char)
  | classPlus (ranges : List (Char × Char))
  | endText

/-- Membership of a character in a class given by inclusive ranges. -/
def inClass (ranges : List (Char × Char)) (c : Char) : Bool :=
  ranges.any fun rg => decide (rg.1.toNat ≤ c.toNat) && decide (c.toNat ≤ rg.2.toNat)

/-- Greedy `class+` followed by the continuation `k`: consume one class
character, prefer consuming more, otherwise hand the rest to `k`.  The result
is the number of characters matched. -/
def plusLoop (ranges : List (Char × Char)) (k : List Char → Option Nat) :
    List Char → Option Nat
  | [] => none
  | x :: xs =>
    if inClass ranges x then
      match plusLoop ranges k xs with
      | some n => some (n + 1)
      | none => (k xs).map (· + 1)
    else none

/-- Anchored backtracking match of an item sequence at the start of the
input; returns the length of the match. -/
def matchHere : List Inst → List Char → Option Nat
  | [], _ => some 0
  | Inst.lit c :: rest, s =>
    match s with
    | x :: xs => if x = c then (matchHere rest xs).map (· + 1) else none
    | [] => none
  | Inst.endText :: rest, s =>
    match s with
    | [] => matchHere rest []
    | _ :: _ => none
  | Inst.classPlus ranges :: rest, s => plusLoop ranges (matchHere rest) s

/-- Leftmost match: the text of the first match found scanning start
positions from left to right, or the empty text when there is none. -/
def findChars (re : List Inst) : List Char → List Char
  | [] =>
    match matchHere re [] with
    | some n => List.take n []
    | none => []
  | x :: xs =>
    match matchHere re (x :: xs) with
    | some n => List.take n (x :: xs)
    | none => findChars re xs

/-- The class `[a-zA-Z\d\-]`. -/
def idClass : List (Char × Char) :=
  [('a', 'z'), ('A', 'Z'), ('0', '9'), ('-', '-')]

/-- The compiled pattern `\/[a-zA-Z\d\-]+$`. -/
def r : List Inst :=
  [Inst.lit '/', Inst.classPlus idClass, Inst.endText]

/-- Go `(*Regexp).FindString`. -/
def FindString (re : List Inst) (s : String) : String :=
  String.mk (findChars re s.data)

/-! ## Data model -/

/-- The struct `Dashboard`. -/
structure Dashboard where
  DisplayName : String
  Name : String
  defaultDashboard : Bool
  deriving DecidableEq, Repr

/-- The method `Dashboard.buildUrl`. -/
def Dashboard.buildUrl (d : Dashboard) (projectId : String) : String :=
  if d.defaultDashboard then
    "https://console.cloud.google.com/monitoring/dashboards/resourceList/" ++ d.Name
      ++ "?project=" ++ projectId
  else
    let ms := FindString r d.Name
    "https://console.cloud.google.com/monitoring/dashboards/builder" ++ ms
      ++ "?project=" ++ projectId

/-! ## Cache path and refresh decision -/

/-- The package state set by `init` and the flags. -/
structure Config where
  homeDir : String
  projectId : String
  updateCache : Bool

/-- The assignment `baseDir = homeDir + "/.cloudmonitoring_dig"` of `init`. -/
def Config.baseDir (c : Config) : String :=
  c.homeDir ++ "/.cloudmonitoring_dig"

/-- The function `getCacheDir`. -/
def getCacheDir (c : Config) : String :=
  c.baseDir ++ "/" ++ c.projectId

/-- The function `getCacheFilePath`. -/
def getCacheFilePath (c : Config) : String :=
  let cacheDir := getCacheDir c
  cacheDir ++ "/cache.json"

/-- Outcome of `os.Stat`: the file is there, the error satisfies
`os.IsNotExist`, or any other error. -/
inductive StatResult where
  | found
  | notExist
  | otherError
  deriving DecidableEq, Repr

/-- The function `callGetCache`, given the outcome of `os.Stat` on each
path. -/
def callGetCache (c : Config) (stat : String → StatResult) : Bool :=
  if c.updateCache then true
  else
    match stat (getCacheFilePath c) with
    | StatResult.notExist => true
    | _ => false

/-! ## JSON text, as `encoding/json` reads it -/

/-- A JSON document.  A number keeps its text. -/
inductive Json where
  | null
  | bool (b : Bool)
  | num (text : List Char)
  | str (s : String)
  | arr (items : List Json)
  | obj (members : List (String × Json))

/-- JSON white space: space, tab, line feed, carriage return. -/
def isWs (c : Char) : Bool :=
  c = ' ' || c = '\t' || c = '\n' || c = '\r'

/-- Drop leading white space. -/
def skipWs : List Char → List Char
  | [] => []
  | c :: rest => if isWs c then skipWs rest else c :: rest

/-- Value of a hexadecimal digit. -/
def hexVal (c : Char) : Option Nat :=
  if '0'.toNat ≤ c.toNat ∧ c.toNat ≤ '9'.toNat then some (c.toNat - '0'.toNat)
  else if 'a'.toNat ≤ c.toNat ∧ c.toNat ≤ 'f'.toNat then some (c.toNat - 'a'.toNat + 10)
  else if 'A'.toNat ≤ c.toNat ∧ c.toNat ≤ 'F'.toNat then some (c.toNat - 'A'.toNat + 10)
  else none

/-- Value of four hexadecimal digits (`getu4`). -/
def u4 (a b c d : Char) : Option Nat :=
  match hexVal a, hexVal b, hexVal c, hexVal d with
  | some x, some y, some z, some w => some (((x * 16 + y) * 16 + z) * 16 + w)
  | _, _, _, _ => none

/-- The low half of a surrogate pair written `\uXXXX` at the start of the
input, with the input after it. -/
def lowSurrogate : List Char → Option (Nat × List Char)
  | e :: f :: a :: b :: c :: d :: rest =>
    if e = '\\' ∧ f = 'u' then
      match u4 a b c d with
      | some lo => if 0xDC00 ≤ lo ∧ lo < 0xE000 then some (lo, rest) else none
      | none => none
    else none
  | _ => none

/-- The character of a single-letter escape. -/
def simpleEscape (e : Char) : Option Char :=
  if e = '"' then some '"'
  else if e = '\\' then some '\\'
  else if e = '/' then some '/'
  else if e = 'b' then some (Char.ofNat 8)
  else if e = 'f' then some (Char.ofNat 12)
  else if e = 'n' then some '\n'
  else if e = 'r' then some '\r'
  else if e = 't' then some '\t'
  else none

/-- Read a string literal after its opening quote: the decoded characters
and the input after the closing quote.  A lone surrogate escape decodes to
U+FFFD; a raw control character is an error.  The fuel bounds the number of
characters read. -/
def parseStringBody : Nat → List Char → Option (List Char × List Char)
  | 0, _ => none
  | _ + 1, [] => none
  | fuel + 1, c :: rest =>
    if c = '"' then some ([], rest)
    else if c = '\\' then
      match rest with
      | [] => none
      | e :: rest2 =>
        if e = 'u' then
          match rest2 with
          | a :: b :: c2 :: d :: rest3 =>
            match u4 a b c2 d with
            | none => none
            | some n =>
              if 0xD800 ≤ n ∧ n < 0xE000 then
                match (if n < 0xDC00 then lowSurrogate rest3 else none) with
                | some (lo, rest4) =>
                  (parseStringBody fuel rest4).map fun p =>
                    (Char.ofNat (0x10000 + (n - 0xD800) * 0x400 + (lo - 0xDC00)) :: p.1, p.2)
                | none =>
                  (parseStringBody fuel rest3).map fun p => (Char.ofNat 0xFFFD :: p.1, p.2)
              else
                (parseStringBody fuel rest3).map fun p => (Char.ofNat n :: p.1, p.2)
          | _ => none
        else
          match simpleEscape e with
          | some x => (parseStringBody fuel rest2).map fun p => (x :: p.1, p.2)
          | none => none
    else if c.toNat < 0x20 then none
    else (parseStringBody fuel rest).map fun p => (c :: p.1, p.2)

/-- Whether a character is a decimal digit. -/
def isDigit (c : Char) : Bool :=
  decide ('0'.toNat ≤ c.toNat) && decide (c.toNat ≤ '9'.toNat)

/-- Split off the leading decimal digits. -/
def spanDigits : List Char → List Char × List Char
  | [] => ([], [])
  | c :: rest =>
    if isDigit c then ((spanDigits rest).1.cons c, (spanDigits rest).2) else ([], c :: rest)

/-- Read the integer part of a number: `0`, or a non-zero digit followed by
digits. -/
def parseInt : List Char → Option (List Char × List Char)
  | [] => none
  | c :: rest =>
    if c = '0' then some (['0'], rest)
    else if isDigit c then some (c :: (spanDigits rest).1, (spanDigits rest).2)
    else none

/-- Read an optional fraction `.digits`. -/
def parseFrac : List Char → Option (List Char × List Char)
  | [] => some ([], [])
  | c :: rest =>
    if c = '.' then
      match spanDigits rest with
      | ([], _) => none
      | (ds, rest2) => some ('.' :: ds, rest2)
    else some ([], c :: rest)

/-- Read an optional exponent `e` or `E`, optional sign, digits. -/
def parseExp : List Char → Option (List Char × List Char)
  | [] => some ([], [])
  | c :: rest =>
    if c = 'e' ∨ c = 'E' then
      match rest with
      | [] => none
      | sgn :: rest2 =>
        if sgn = '+' ∨ sgn = '-' then
          match spanDigits rest2 with
          | ([], _) => none
          | (ds, rest3) => some (c :: sgn :: ds, rest3)
        else
          match spanDigits (sgn :: rest2) with
          | ([], _) => none
          | (ds, rest3) => some (c :: ds, rest3)
    else some ([], c :: rest)

/-- Read a number literal. -/
def parseNumber (s : List Char) : Option (List Char × List Char) :=
  let body : List Char → Option (List Char × List Char) := fun t =>
    match parseInt t with
    | none => none
    | some (i, r1) =>
      match parseFrac r1 with
      | none => none
      | some (f, r2) =>
        match parseExp r2 with
        | none => none
        | some (e, r3) => some (i ++ f ++ e, r3)
  match s with
  | [] => none
  | c :: rest =>
    if c = '-' then (body rest).map fun p => ('-' :: p.1, p.2) else body (c :: rest)

/-- Strip the given word from the front of the input. -/
def stripWord : List Char → List Char → Option (List Char)
  | [], s => some s
  | _ :: _, [] => none
  | w :: ws, c :: rest => if c = w then stripWord ws rest else none

/-- The scanner's limit on the nesting of arrays and objects. -/
def maxNestingDepth : Nat := 10000

mutual
/-- Read one JSON value, after optional white space, inside `depth` open
arrays and objects. -/
def parseValue : Nat → Nat → List Char → Option (Json × List Char)
  | 0, _, _ => none
  | fuel + 1, depth, s =>
    match skipWs s with
    | [] => none
    | c :: rest =>
      if c = '"' then
        (parseStringBody (rest.length + 1) rest).map fun p => (Json.str (String.mk p.1), p.2)
      else if c = '[' then
        if maxNestingDepth ≤ depth then none
        else
          match skipWs rest with
          | [] => none
          | c2 :: rest2 =>
            if c2 = ']' then some (Json.arr [], rest2)
            else (parseElems fuel (depth + 1) rest).map fun p => (Json.arr p.1, p.2)
      else if c = '{' then
        if maxNestingDepth ≤ depth then none
        else
          match skipWs rest with
          | [] => none
          | c2 :: rest2 =>
            if c2 = '}' then some (Json.obj [], rest2)
            else (parseMembers fuel (depth + 1) rest).map fun p => (Json.obj p.1, p.2)
      else if c = 't' then (stripWord ['r', 'u', 'e'] rest).map fun r1 => (Json.bool true, r1)
      else if c = 'f' then
        (stripWord ['a', 'l', 's', 'e'] rest).map fun r1 => (Json.bool false, r1)
      else if c = 'n' then (stripWord ['u', 'l', 'l'] rest).map fun r1 => (Json.null, r1)
      else (parseNumber (c :: rest)).map fun p => (Json.num p.1, p.2)
/-- Read the elements of a non-empty array up to and including `]`. -/
def parseElems : Nat → Nat → List Char → Option (List Json × List Char)
  | 0, _, _ => none
  | fuel + 1, depth, s =>
    match parseValue fuel depth s with
    | none => none
    | some (v, rest) =>
      match skipWs rest with
      | [] => none
      | c :: rest2 =>
        if c = ',' then (parseElems fuel depth rest2).map fun p => (v :: p.1, p.2)
        else if c = ']' then some ([v], rest2)
        else none
/-- Read the members of a non-empty object up to and including `}`. -/
def parseMembers : Nat → Nat → List Char → Option (List (String × Json) × List Char)
  | 0, _, _ => none
  | fuel + 1, depth, s =>
    match skipWs s with
    | [] => none
    | q :: rest =>
      if q = '"' then
        match parseStringBody (rest.length + 1) rest with
        | none => none
        | some (key, rest2) =>
          match skipWs rest2 with
          | [] => none
          | colon :: rest3 =>
            if colon = ':' then
              match parseValue fuel depth rest3 with
              | none => none
              | some (v, rest4) =>
                match skipWs rest4 with
                | [] => none
                | c :: rest5 =>
                  if c = ',' then
                    (parseMembers fuel depth rest5).map fun p => ((String.mk key, v) :: p.1, p.2)
                  else if c = '}' then some ([(String.mk key, v)], rest5)
                  else none
            else none
      else none
end

/-- Read a whole JSON text: one value, white space around it, nothing else.
`none` is a syntax error. -/
def parseJson (s : List Char) : Option Json :=
  match parseValue (2 * s.length + 2) 0 s with
  | none => none
  | some (v, rest) =>
    match skipWs rest with
    | [] => some v
    | _ :: _ => none

/-! ## Decoding the cache into `[]*Dashboard` -/

/-- Representative of a character up to simple case folding, for comparison
with a name made of ASCII letters: capitals go to small letters, the Kelvin
sign to `k` and the long s to `s`. -/
def foldChar (c : Char) : Char :=
  if 'A'.toNat ≤ c.toNat ∧ c.toNat ≤ 'Z'.toNat then Char.ofNat (c.toNat + 32)
  else if c.toNat = 0x212A then 'k'
  else if c.toNat = 0x17F then 's'
  else c

/-- Case-insensitive match of an object key with a field name. -/
def foldEq (key field : String) : Bool :=
  decide (key.data.map foldChar = field.data.map foldChar)

/-- The two fields a key can select, by the struct tags `json:"displayName"`
and `json:"name"`. -/
inductive Field where
  | displayName
  | name
  deriving DecidableEq, Repr

/-- Field selected by an object key: an exact match first, then a
case-insensitive one.  The unexported field `defaultDashboard` is never
selected. -/
def fieldOf (key : String) : Option Field :=
  if key = "displayName" then some Field.displayName
  else if key = "name" then some Field.name
  else if foldEq key "displayName" then some Field.displayName
  else if foldEq key "name" then some Field.name
  else none

/-- Store one member into the struct: a string value is stored in the
selected field; any other value (also `null`) and an unknown key leave the
struct as it is. -/
def storeMember (d : Dashboard) (m : String × Json) : Dashboard :=
  match fieldOf m.1, m.2 with
  | some Field.displayName, Json.str v => { d with DisplayName := v }
  | some Field.name, Json.str v => { d with Name := v }
  | _, _ => d

/-- The zero value of `Dashboard`. -/
def Dashboard.zero : Dashboard :=
  { DisplayName := "", Name := "", defaultDashboard := false }

/-- Decode one array element into a `*Dashboard`: `null` gives the nil
pointer (`none`), an object fills a fresh zero struct member by member, and
any other value leaves a fresh zero struct. -/
def decodeElem : Json → Option Dashboard
  | Json.null => none
  | Json.obj members => some (members.foldl storeMember Dashboard.zero)
  | _ => some Dashboard.zero

/-- Decode a document into the slice: an array gives its elements, anything
else leaves the slice empty. -/
def decodeDashboards : Json → List (Option Dashboard)
  | Json.arr items => items.map decodeElem
  | _ => []

/-- The statement `json.Unmarshal(f, &dashboards)` with its error dropped:
the slice after the call, which started empty.  A syntax error leaves it
empty. -/
def unmarshalDashboards (f : String) : List (Option Dashboard) :=
  match parseJson f.data with
  | none => []
  | some doc => decodeDashboards doc

/-- Whether `json.Unmarshal(f, &dashboards)` reports an error: a syntax error,
a document that is not an array or `null`, an element that is not an object
or `null`, or a selected field whose value is not a string or `null`. -/
def unmarshalFails (f : String) : Bool :=
  match parseJson f.data with
  | none => true
  | some (Json.arr items) =>
    items.any fun item =>
      match item with
      | Json.null => false
      | Json.obj members =>
        members.any fun m =>
          match fieldOf m.1, m.2 with
          | some _, Json.str _ => false
          | some _, Json.null => false
          | some _, _ => true
          | none, _ => false
      | _ => true
  | some Json.null => false
  | some _ => true

/-- How a run of a function that can end the program comes out. -/
inductive Result (α : Type) where
  | fatal
  | returned (a : α)
  deriving DecidableEq, Repr

/-- The function `getDashboards`, given the outcome of `ioutil.ReadFile` on
each path (`none` is an error). -/
def getDashboards (c : Config) (readFile : String → Option String) :
    Result (List (Option Dashboard)) :=
  let filename := getCacheFilePath c
  match readFile filename with
  | none => Result.fatal
  | some f => Result.returned (unmarshalDashboards f)

/-- The variable `defaultDashboards`. -/
def defaultDashboards : List Dashboard :=
  [ { DisplayName := "App Engine", Name := "gae_application", defaultDashboard := true },
    { DisplayName := "BigQuery", Name := "bigquery_dataset", defaultDashboard := true },
    { DisplayName := "Cloud Spanner", Name := "spanner_instance", defaultDashboard := true },
    { DisplayName := "Cloud SQL", Name := "cloudsql_database", defaultDashboard := true },
    { DisplayName := "Cloud Strage", Name := "gcs_bucket", defaultDashboard := true },
    { DisplayName := "Dataflow", Name := "dataflow_job", defaultDashboard := true },
    { DisplayName := "Disks", Name := "gce_disk", defaultDashboard := true },
    { DisplayName := "External HTTP(S) Load Balancers", Name := "l7_lb_rule",
      defaultDashboard := true },
    { DisplayName := "Firewalls", Name := "compute_firewall", defaultDashboard := true },
    { DisplayName := "GKE", Name := "kubernetes", defaultDashboard := true },
    { DisplayName := "Google Cloud Load Balancers", Name := "loadbalancing",
      defaultDashboard := true },
    { DisplayName := "Infrastructure Summary", Name := "infrastructure",
      defaultDashboard := true },
    { DisplayName := "Network Security Policies", Name := "network_security_policy",
      defaultDashboard := true },
    { DisplayName := "Pub/Sub", Name := "pubsub_topic", defaultDashboard := true },
    { DisplayName := "VM Instances", Name := "gce_instance", defaultDashboard := true } ]

/-! ## The run -/

/-- What `fuzzyfinder.Find` returns: a chosen index with a nil error, or the
abort error when the user cancels. -/
inductive FindResult where
  | chosen (i : Nat)
  | cancelled
  deriving DecidableEq, Repr

/-- The index of the pair `fuzzyfinder.Find` returns; with an error the
library returns index 0. -/
def FindResult.index : FindResult → Nat
  | FindResult.chosen i => i
  | FindResult.cancelled => 0

/-- Outcomes of the calls the run makes outside the program: `os.Stat`,
`os.MkdirAll`, `os.Create` and `ioutil.ReadFile` by path, the run of the
`gcloud` command by project id, and the selector by the labels it shows. -/
structure World where
  stat : String → StatResult
  mkdirAll : String → Bool
  create : String → Bool
  gcloud : String → Bool
  readFile : String → Option String
  find : List String → FindResult

/-- The function `getCache`: whether it returns (`true`) or ends the program
through `log.Fatal` (`false`). -/
def getCache (c : Config) (w : World) : Bool :=
  let dirOk :=
    match w.stat (getCacheDir c) with
    | StatResult.notExist => w.mkdirAll (getCacheDir c)
    | _ => true
  if !dirOk then false
  else if !w.create (getCacheFilePath c) then false
  else w.gcloud c.projectId

/-- How the run ends. -/
inductive Outcome where
  | exit0
  | fatal
  | panicked
  | opened (url : String)
  deriving DecidableEq, Repr

/-- The slice `main` hands to `fuzzyfinder.Find`:
`append(dashboards, defaultDashboards...)`. -/
def mergeDashboards (discovered : List (Option Dashboard)) : List (Option Dashboard) :=
  discovered ++ defaultDashboards.map some

/-- The labels the selector collects through the callback
`dashboards[i].DisplayName`, called on every index; a nil entry makes the
callback panic (`none`). -/
def labels : List (Option Dashboard) → Option (List String)
  | [] => some []
  | none :: _ => none
  | some d :: rest => (labels rest).map fun ls => d.DisplayName :: ls

/-- The method `Dashboard.Open`: the command `open url` is run and the
program exits with its status. -/
def Dashboard.Open (d : Dashboard) (projectId : String) : Outcome :=
  let url := d.buildUrl projectId
  Outcome.opened url

/-- The first statements of `main`, up to the call of `fuzzyfinder.Find`:
the slice handed to the selector, unless the program ended before. -/
def selectorInput (c : Config) (w : World) : Result (List (Option Dashboard)) :=
  if callGetCache c w.stat && !getCache c w then Result.fatal
  else
    match getDashboards c w.readFile with
    | Result.fatal => Result.fatal
    | Result.returned discovered => Result.returned (mergeDashboards discovered)

/-- The function `main`: the error of `fuzzyfinder.Find` is dropped and the
entry at the returned index is opened; an index outside the slice and a nil
entry panic. -/
def main (c : Config) (w : World) : Outcome :=
  match selectorInput c w with
  | Result.fatal => Outcome.fatal
  | Result.returned dashboards =>
    match labels dashboards with
    | none => Outcome.panicked
    | some ls =>
      let i := (w.find ls).index
      match dashboards.get? i with
      | none => Outcome.panicked
      | some none => Outcome.panicked
      | some (some d) => d.Open c.projectId

/-- The function `init` followed by `main`: without a project id the program
logs a message and exits with status 0. -/
def run (c : Config) (w : World) : Outcome :=
  if c.projectId = "" then Outcome.exit0 else main c w

/-! ## Writing a cache file -/

/-- Hexadecimal digit of a value below 16. -/
def hexDigit (n : Nat) : Char :=
  if n < 10 then Char.ofNat ('0'.toNat + n) else Char.ofNat ('a'.toNat + (n - 10))

/-- The escape `\uXXXX` of a code point below 0x10000. -/
def escapeU (n : Nat) : List Char :=
  ['\\', 'u', hexDigit (n / 4096), hexDigit (n / 256 % 16), hexDigit (n / 16 % 16),
    hexDigit (n % 16)]

/-- One character inside a JSON string literal, as `json.Marshal` writes it:
quote, backslash, line feed, carriage return and tab get a short escape, the
other control characters, `<`, `>`, `&`, U+2028 and U+2029 get `\uXXXX`, every
other character stands for itself. -/
def encodeChar (c : Char) : List Char :=
  if c = '"' then ['\\', '"']
  else if c = '\\' then ['\\', '\\']
  else if c = '\n' then ['\\', 'n']
  else if c = '\r' then ['\\', 'r']
  else if c = '\t' then ['\\', 't']
  else if c.toNat < 0x20 ∨ c = '<' ∨ c = '>' ∨ c = '&' ∨ c.toNat = 0x2028 ∨ c.toNat = 0x2029 then
    escapeU c.toNat
  else [c]

/-- A JSON string literal. -/
def encodeString (s : String) : List Char :=
  '"' :: (s.data.flatMap encodeChar ++ ['"'])

/-- One entry as a JSON object with the fields `displayName` and `name`; the
flag is not written. -/
def encodeDashboard (d : Dashboard) : List Char :=
  "\x7b\"displayName\":".data ++ encodeString d.DisplayName ++ ",\"name\":".data
    ++ encodeString d.Name ++ ['}']

/-- The entries after the first, each preceded by a comma, and the closing
bracket. -/
def encodeTail : List Dashboard → List Char
  | [] => [']']
  | d :: ds => ',' :: (encodeDashboard d ++ encodeTail ds)

/-- A list of entries as a JSON array of objects. -/
def encodeDashboards : List Dashboard → String
  | [] => String.mk ['[', ']']
  | d :: ds => String.mk ('[' :: (encodeDashboard d ++ encodeTail ds))

/-- A world for the home directory `/home/u` and the project `demo`: the
cache directory and the cache file exist, the file holds `content`, every
other path is missing, and the selector answers `answer`. -/
def sampleWorld (content : String) (answer : FindResult) : World where
  stat := fun path =>
    if path = "/home/u/.cloudmonitoring_dig/demo" ∨
        path = "/home/u/.cloudmonitoring_dig/demo/cache.json" then StatResult.found
    else StatResult.notExist
  mkdirAll := fun _ => true
  create := fun _ => true
  gcloud := fun _ => true
  readFile := fun path =>
    if path = "/home/u/.cloudmonitoring_dig/demo/cache.json" then some content else none
  find := fun _ => answer

/-- The JSON object of an entry: the members `displayName` and `name`. -/
def entryJson (d : Dashboard) : Json :=
  Json.obj [("displayName", Json.str d.DisplayName), ("name", Json.str d.Name)]

/-- The display name a member of a cache object supplies: its value, when
the value is a string and the key is `displayName` up to letter case. -/
def displayNameValue (m : String × Json) : Option String :=
  match m.2 with
  | Json.str v => if foldEq m.1 "displayName" then some v else none
  | _ => none

/-- The display name a cache object supplies: that of its last member
supplying one, and the empty string when no member does. -/
def cacheDisplayName (members : List (String × Json)) : String :=
  ((members.filterMap displayNameValue).getLast?).getD ""

/-! ## The pattern `r` -/

/-- The characters the claims call ASCII letters, digits and hyphens. -/
def isIdChar (c : Char) : Bool :=
  c.isAlphanum || c = '-'

theorem toNat_eq_iff (c d : Char) : c.toNat = d.toNat ↔ c = d := by
  constructor
  · intro h
    apply Char.ext
    apply UInt32.ext
    simpa [Char.toNat, UInt32.toNat] using h
  · intro h
    rw [h]

theorem val_ge_iff (c : Char) (n : UInt32) : c.val ≥ n ↔ n.toNat ≤ c.toNat := by
  rw [ge_iff_le, UInt32.le_def, BitVec.le_def]
  exact Iff.rfl

theorem val_le_iff (c : Char) (n : UInt32) : c.val ≤ n ↔ c.toNat ≤ n.toNat := by
  rw [UInt32.le_def, BitVec.le_def]
  exact Iff.rfl

/-- The class of the pattern holds exactly the ASCII letters, the digits and
the hyphen. -/
theorem inClass_idClass (c : Char) : inClass idClass c = isIdChar c := by
  have h45 : c = '-' ↔ c.toNat = 45 := (toNat_eq_iff c '-').symm
  have ha : 'a'.toNat = 97 := rfl
  have hz : 'z'.toNat = 122 := rfl
  have hA : 'A'.toNat = 65 := rfl
  have hZ : 'Z'.toNat = 90 := rfl
  have h0 : '0'.toNat = 48 := rfl
  have h9 : '9'.toNat = 57 := rfl
  have hm : '-'.toNat = 45 := rfl
  have u1 : (65 : UInt32).toNat = 65 := rfl
  have u2 : (90 : UInt32).toNat = 90 := rfl
  have u3 : (97 : UInt32).toNat = 97 := rfl
  have u4 : (122 : UInt32).toNat = 122 := rfl
  have u5 : (48 : UInt32).toNat = 48 := rfl
  have u6 : (57 : UInt32).toNat = 57 := rfl
  simp only [inClass, idClass, isIdChar, Char.isAlphanum, Char.isAlpha, Char.isUpper,
    Char.isLower, Char.isDigit, List.any_cons, List.any_nil, Bool.or_false]
  rw [Bool.eq_iff_iff]
  simp only [ha, hz, hA, hZ, h0, h9, hm, h45, Bool.or_eq_true, Bool.and_eq_true,
    decide_eq_true_eq, val_ge_iff, val_le_iff, u1, u2, u3, u4, u5, u6]
  omega

theorem slash_not_idChar : isIdChar '/' = false := by decide

theorem matchHere_endText (s : List Char) :
    matchHere [Inst.endText] s = if s = [] then some 0 else none := by
  cases s <;> simp [matchHere]

/-- A run of class characters up to the end of the text is matched whole. -/
theorem plusLoop_all (seg : List Char) (hne : seg ≠ [])
    (h : ∀ c ∈ seg, isIdChar c = true) :
    plusLoop idClass (matchHere [Inst.endText]) seg = some seg.length := by
  induction seg with
  | nil => exact absurd rfl hne
  | cons c rest ih =>
    have hc : inClass idClass c = true := by
      rw [inClass_idClass]; exact h c (List.mem_cons_self c rest)
    by_cases hr : rest = []
    · subst hr
      simp [plusLoop, hc, matchHere]
    · have ih2 := ih hr (fun x hx => h x (List.mem_cons_of_mem c hx))
      simp [plusLoop, hc, ih2]

/-- A character outside the class further on makes the repetition fail. -/
theorem plusLoop_blocked (a b : List Char) (x : Char) (hx : isIdChar x = false) :
    plusLoop idClass (matchHere [Inst.endText]) (a ++ x :: b) = none := by
  induction a with
  | nil =>
    have hc : inClass idClass x = false := by rw [inClass_idClass]; exact hx
    simp [plusLoop, hc]
  | cons c rest ih =>
    by_cases hc : inClass idClass c = true
    · have hne : rest ++ x :: b ≠ [] := by simp
      simp [plusLoop, hc, ih, matchHere_endText, hne]
    · simp [plusLoop, hc]

/-- Whenever the repetition succeeds, the whole rest of the text is a
non-empty run of class characters. -/
theorem plusLoop_some (xs : List Char) (n : Nat)
    (h : plusLoop idClass (matchHere [Inst.endText]) xs = some n) :
    xs ≠ [] ∧ ∀ c ∈ xs, isIdChar c = true := by
  induction xs generalizing n with
  | nil => simp [plusLoop] at h
  | cons c rest ih =>
    refine ⟨by simp, ?_⟩
    by_cases hc : inClass idClass c = true
    · have hc2 : isIdChar c = true := by rw [← inClass_idClass]; exact hc
      cases hp : plusLoop idClass (matchHere [Inst.endText]) rest with
      | some m =>
        intro x hx
        rcases List.mem_cons.1 hx with rfl | hx
        · exact hc2
        · exact (ih m hp).2 x hx
      | none =>
        have hr : rest = [] := by
          by_contra hne
          simp [plusLoop, hc, hp, matchHere_endText, hne] at h
        subst hr
        intro x hx
        rcases List.mem_cons.1 hx with rfl | hx
        · exact hc2
        · simp at hx
    · simp [plusLoop, hc] at h

theorem matchHere_r_cons (x : Char) (xs : List Char) :
    matchHere r (x :: xs) =
      if x = '/' then (plusLoop idClass (matchHere [Inst.endText]) xs).map (· + 1) else none :=
  rfl

/-- An anchored match of `r` exists exactly on a slash followed by a
non-empty run of class characters up to the end. -/
theorem matchHere_r_some (t : List Char) (n : Nat) (h : matchHere r t = some n) :
    ∃ seg, t = '/' :: seg ∧ seg ≠ [] ∧ ∀ c ∈ seg, isIdChar c = true := by
  cases t with
  | nil => simp [r, matchHere] at h
  | cons x xs =>
    by_cases hx : x = '/'
    · subst hx
      rw [matchHere_r_cons] at h
      simp only [if_true, Option.map_eq_some'] at h
      obtain ⟨m, hm, _⟩ := h
      exact ⟨xs, rfl, plusLoop_some xs m hm⟩
    · rw [matchHere_r_cons] at h
      simp [hx] at h

theorem matchHere_r_slash (seg : List Char) (hne : seg ≠ [])
    (h : ∀ c ∈ seg, isIdChar c = true) :
    matchHere r ('/' :: seg) = some (seg.length + 1) := by
  rw [matchHere_r_cons]
  simp [plusLoop_all seg hne h]

/-- The leftmost match on `pre ++ "/" ++ seg` is `"/" ++ seg`. -/
theorem findChars_r_segment (pre seg : List Char) (hne : seg ≠ [])
    (h : ∀ c ∈ seg, isIdChar c = true) :
    findChars r (pre ++ '/' :: seg) = '/' :: seg := by
  induction pre with
  | nil =>
    simp [findChars, matchHere_r_slash seg hne h]
  | cons x rest ih =>
    have hnone : matchHere r (x :: (rest ++ '/' :: seg)) = none := by
      rw [matchHere_r_cons]
      by_cases hx : x = '/'
      · subst hx
        simp [plusLoop_blocked rest seg '/' slash_not_idChar]
      · simp [hx]
    simp [findChars, hnone, ih]

/-- Without an anchored match at any position the result is empty. -/
theorem findChars_eq_nil (re : List Inst) (s : List Char)
    (h : ∀ pre t, s = pre ++ t → matchHere re t = none) : findChars re s = [] := by
  induction s with
  | nil => simp [findChars, h [] [] rfl]
  | cons x xs ih =>
    have h0 := h [] (x :: xs) rfl
    have ih2 := ih (fun pre t ht => h (x :: pre) t (by rw [ht]; rfl))
    simp [findChars, h0, ih2]

theorem data_ne_nil (s : String) (h : s ≠ "") : s.data ≠ [] := by
  intro hd
  apply h
  exact String.ext hd

/-- The split of a text at its last slash is unique. -/
theorem last_slash_unique (a b a2 b2 : List Char) (hb : '/' ∉ b) (hb2 : '/' ∉ b2)
    (h : a ++ '/' :: b = a2 ++ '/' :: b2) : b = b2 := by
  induction a generalizing a2 with
  | nil =>
    cases a2 with
    | nil => simpa using h
    | cons y ys =>
      simp only [List.nil_append, List.cons_append, List.cons.injEq] at h
      exact absurd (h.2 ▸ (by simp : '/' ∈ ys ++ '/' :: b2)) hb
  | cons x xs ih =>
    cases a2 with
    | nil =>
      simp only [List.nil_append, List.cons_append, List.cons.injEq] at h
      exact absurd (h.2 ▸ (by simp : '/' ∈ xs ++ '/' :: b)) hb2
    | cons y ys =>
      simp only [List.cons_append, List.cons.injEq] at h
      exact ih ys h.2

/-- The three ways an identifier can lack a trailing segment: no slash at
all, nothing after the last slash, or a character outside the class after the
last slash. -/
theorem no_segment_of_cases (name : String)
    (h : (∀ c ∈ name.data, c ≠ '/') ∨
      ∃ pre seg : String, name = pre ++ "/" ++ seg ∧ (∀ c ∈ seg.data, c ≠ '/') ∧
        (seg = "" ∨ ∃ c ∈ seg.data, isIdChar c = false)) :
    ¬ ∃ pre seg : String, name = pre ++ "/" ++ seg ∧ seg ≠ "" ∧
      ∀ c ∈ seg.data, isIdChar c = true := by
  rintro ⟨pre2, seg2, hname, hne2, hid2⟩
  have hd2 : name.data = pre2.data ++ '/' :: seg2.data := by
    rw [hname]; simp [String.data_append]
  have hns2 : '/' ∉ seg2.data := by
    intro hm
    have := hid2 '/' hm
    rw [slash_not_idChar] at this
    exact Bool.noConfusion this
  rcases h with h | ⟨pre, seg, hn, hns, hcase⟩
  · exact h '/' (by rw [hd2]; simp) rfl
  · have hd : name.data = pre.data ++ '/' :: seg.data := by
      rw [hn]; simp [String.data_append]
    have hns1 : '/' ∉ seg.data := fun hm => hns '/' hm rfl
    have heq : seg.data = seg2.data :=
      last_slash_unique pre.data seg.data pre2.data seg2.data hns1 hns2 (by rw [← hd, ← hd2])
    rcases hcase with hempty | ⟨c, hc, hcid⟩
    · apply hne2
      apply String.ext
      rw [← heq, hempty]
    · have := hid2 c (heq ▸ hc)
      rw [hcid] at this
      exact Bool.noConfusion this

theorem storeMember_flag (d : Dashboard) (m : String × Json) :
    (storeMember d m).defaultDashboard = d.defaultDashboard := by
  unfold storeMember
  split <;> rfl

theorem foldl_storeMember_flag (ms : List (String × Json)) (d : Dashboard) :
    (ms.foldl storeMember d).defaultDashboard = d.defaultDashboard := by
  induction ms generalizing d with
  | nil => rfl
  | cons m rest ih => rw [List.foldl_cons, ih, storeMember_flag]

/-- A decoded entry never carries the built-in flag. -/
theorem decodeElem_flag (j : Json) (d : Dashboard) (h : decodeElem j = some d) :
    d.defaultDashboard = false := by
  cases j with
  | null => simp [decodeElem] at h
  | obj ms =>
    simp only [decodeElem, Option.some.injEq] at h
    rw [← h, foldl_storeMember_flag]; rfl
  | bool b => simp only [decodeElem, Option.some.injEq] at h; rw [← h]; rfl
  | num t => simp only [decodeElem, Option.some.injEq] at h; rw [← h]; rfl
  | str t => simp only [decodeElem, Option.some.injEq] at h; rw [← h]; rfl
  | arr t => simp only [decodeElem, Option.some.injEq] at h; rw [← h]; rfl

theorem unmarshalDashboards_flag (f : String) (d : Dashboard)
    (h : some d ∈ unmarshalDashboards f) : d.defaultDashboard = false := by
  unfold unmarshalDashboards at h
  cases hp : parseJson f.data with
  | none => rw [hp] at h; simp at h
  | some doc =>
    rw [hp] at h
    cases doc with
    | arr items =>
      simp only [decodeDashboards, List.mem_map] at h
      obtain ⟨j, _, hj⟩ := h
      exact decodeElem_flag j d hj
    | null => simp [decodeDashboards] at h
    | bool b => simp [decodeDashboards] at h
    | num t => simp [decodeDashboards] at h
    | str t => simp [decodeDashboards] at h
    | obj t => simp [decodeDashboards] at h

/-- A key selects the field `DisplayName` exactly when it is `displayName`
up to letter case. -/
theorem fieldOf_displayName (key : String) :
    fieldOf key = some Field.displayName ↔ foldEq key "displayName" = true := by
  unfold fieldOf
  by_cases h1 : key = "displayName"
  · subst h1
    simp only [if_true, true_iff]
    decide
  · by_cases h2 : key = "name"
    · subst h2
      have hf : foldEq "name" "displayName" = false := by decide
      simp [hf]
    · by_cases h3 : foldEq key "displayName" = true
      · simp [h1, h2, h3]
      · simp only [h1, h2, h3, if_false, Bool.false_eq_true, iff_false]
        split <;> simp

/-- Storing a member sets the display name to the one the member supplies
and keeps it otherwise. -/
theorem storeMember_displayName (d : Dashboard) (m : String × Json) :
    (storeMember d m).DisplayName = (displayNameValue m).getD d.DisplayName := by
  obtain ⟨key, v⟩ := m
  by_cases hk : foldEq key "displayName" = true
  · have hf := (fieldOf_displayName key).2 hk
    cases v <;> simp [storeMember, displayNameValue, hf, hk]
  · have hf : fieldOf key ≠ some Field.displayName := fun h => hk ((fieldOf_displayName key).1 h)
    have hk2 : foldEq key "displayName" = false := by simpa using hk
    cases v with
    | str t =>
      simp only [storeMember, displayNameValue, hk2, Bool.false_eq_true, if_false,
        Option.getD_none]
      split
      · next hsel _ => exact absurd hsel hf
      · rfl
      · rfl
    | null => simp [storeMember, displayNameValue]
    | bool b => simp [storeMember, displayNameValue]
    | num t => simp [storeMember, displayNameValue]
    | arr t => simp [storeMember, displayNameValue]
    | obj t => simp [storeMember, displayNameValue]

/-- The display name after storing the members of an object is the one the
last supplying member gives. -/
theorem foldl_storeMember_displayName (ms : List (String × Json)) (d : Dashboard) :
    (ms.foldl storeMember d).DisplayName =
      ((ms.filterMap displayNameValue).getLast?).getD d.DisplayName := by
  induction ms generalizing d with
  | nil => rfl
  | cons m rest ih =>
    rw [List.foldl_cons, ih, storeMember_displayName]
    cases hm : displayNameValue m with
    | none => simp [List.filterMap_cons, hm]
    | some v =>
      simp only [List.filterMap_cons, hm, Option.getD_some, List.getLast?_cons]

/-- The entry decoded from a cache object carries the display name the
object supplies. -/
theorem decodeElem_obj_displayName (ms : List (String × Json)) :
    ∃ d, decodeElem (Json.obj ms) = some d ∧ d.DisplayName = cacheDisplayName ms :=
  ⟨ms.foldl storeMember Dashboard.zero, rfl, foldl_storeMember_displayName ms Dashboard.zero⟩

/-! ## Reading back what the writer wrote -/

theorem hexVal_hexDigit (k : Nat) (h : k < 16) : hexVal (hexDigit k) = some k := by
  interval_cases k <;> rfl

theorem u4_escape (n : Nat) (h : n < 65536) :
    u4 (hexDigit (n / 4096)) (hexDigit (n / 256 % 16)) (hexDigit (n / 16 % 16))
      (hexDigit (n % 16)) = some n := by
  unfold u4
  rw [hexVal_hexDigit _ (by omega), hexVal_hexDigit _ (by omega),
    hexVal_hexDigit _ (by omega), hexVal_hexDigit _ (by omega)]
  simp only [Option.some.injEq]
  omega

/-- Reading one written character gives it back. -/
theorem parseStringBody_encodeChar (fuel : Nat) (c : Char) (t : List Char) :
    parseStringBody (fuel + 1) (encodeChar c ++ t) =
      (parseStringBody fuel t).map fun p => (c :: p.1, p.2) := by
  unfold encodeChar
  split
  · next h => subst h; rfl
  · split
    · next h => subst h; rfl
    · split
      · next h => subst h; rfl
      · split
        · next h => subst h; rfl
        · split
          · next h => subst h; rfl
          · split
            · next h1 h2 h3 h4 h5 h =>
              have hn : c.toNat < 0x2030 := by
                rcases h with h | h | h | h | h | h
                · omega
                · subst h; decide
                · subst h; decide
                · subst h; decide
                · omega
                · omega
              have hsur : ¬ (0xD800 ≤ c.toNat ∧ c.toNat < 0xE000) := by omega
              have hq : ¬ ('\\' = '"') := by decide
              simp only [escapeU, List.cons_append, List.nil_append, parseStringBody, hq,
                if_false, if_true, List.append_eq]
              simp only [u4_escape c.toNat (by omega), hsur, if_false, Char.ofNat_toNat]
            · next h1 h2 h3 h4 h5 h =>
              have hlt : ¬ c.toNat < 0x20 := fun hc => h (Or.inl hc)
              simp only [List.cons_append, List.nil_append, parseStringBody, h1, h2, hlt,
                if_false, List.append_eq]

theorem encodeChar_length_pos (c : Char) : 0 < (encodeChar c).length := by
  unfold encodeChar
  split_ifs <;> simp [escapeU]

/-- Reading a written string body up to its closing quote gives the string
back, with the input after the quote. -/
theorem parseStringBody_encoded (s rest : List Char) (fuel : Nat)
    (h : (s.flatMap encodeChar).length < fuel) :
    parseStringBody fuel (s.flatMap encodeChar ++ '"' :: rest) = some (s, rest) := by
  induction s generalizing fuel with
  | nil =>
    cases fuel with
    | zero => simp at h
    | succ f => simp [parseStringBody]
  | cons c cs ih =>
    cases fuel with
    | zero => simp at h
    | succ f =>
      have hpos := encodeChar_length_pos c
      have hlen : (cs.flatMap encodeChar).length < f := by
        simp only [List.flatMap_cons, List.length_append] at h
        omega
      rw [List.flatMap_cons, List.append_assoc, parseStringBody_encodeChar, ih f hlen]
      rfl

theorem encodeString_append (s : String) (rest : List Char) :
    encodeString s ++ rest = '"' :: (s.data.flatMap encodeChar ++ '"' :: rest) := by
  simp [encodeString]

/-- Reading a written string literal. -/
theorem parseValue_string (fuel depth : Nat) (s : String) (rest : List Char) :
    parseValue (fuel + 1) depth (encodeString s ++ rest) = some (Json.str s, rest) := by
  rw [encodeString_append, parseValue]
  have hws : skipWs ('"' :: (s.data.flatMap encodeChar ++ '"' :: rest)) =
      '"' :: (s.data.flatMap encodeChar ++ '"' :: rest) := rfl
  rw [hws]
  simp only [if_true]
  rw [parseStringBody_encoded s.data rest _ (by simp; omega)]
  rfl

/-- Reading the last member of an object. -/
theorem parseMembers_last (fuel depth : Nat) (key : String) (t rest : List Char) (v : Json)
    (hv : parseValue fuel depth t = some (v, '}' :: rest)) :
    parseMembers (fuel + 1) depth (encodeString key ++ ':' :: t) = some ([(key, v)], rest) := by
  rw [encodeString_append, parseMembers]
  have hws : skipWs ('"' :: (key.data.flatMap encodeChar ++ '"' :: ':' :: t)) =
      '"' :: (key.data.flatMap encodeChar ++ '"' :: ':' :: t) := rfl
  rw [hws]
  simp only [if_true]
  rw [parseStringBody_encoded key.data (':' :: t) _ (by simp; omega)]
  have hws2 : skipWs (':' :: t) = ':' :: t := rfl
  have hws3 : skipWs ('}' :: rest) = '}' :: rest := rfl
  have hc : ¬ ('}' = ',') := by decide
  simp only [hws2, if_true, hv, hws3, hc, if_false]

/-- Reading a member of an object that is followed by a comma. -/
theorem parseMembers_more (fuel depth : Nat) (key : String) (t rest : List Char) (v : Json)
    (hv : parseValue fuel depth t = some (v, ',' :: rest)) :
    parseMembers (fuel + 1) depth (encodeString key ++ ':' :: t) =
      (parseMembers fuel depth rest).map fun p => ((key, v) :: p.1, p.2) := by
  rw [encodeString_append, parseMembers]
  have hws : skipWs ('"' :: (key.data.flatMap encodeChar ++ '"' :: ':' :: t)) =
      '"' :: (key.data.flatMap encodeChar ++ '"' :: ':' :: t) := rfl
  rw [hws]
  simp only [if_true]
  rw [parseStringBody_encoded key.data (':' :: t) _ (by simp; omega)]
  have hws2 : skipWs (':' :: t) = ':' :: t := rfl
  have hws3 : skipWs (',' :: rest) = ',' :: rest := rfl
  simp only [hws2, if_true, hv, hws3]

theorem encodeDashboard_append (d : Dashboard) (rest : List Char) :
    encodeDashboard d ++ rest =
      '{' :: (encodeString "displayName" ++ ':' :: (encodeString d.DisplayName ++ ',' ::
        (encodeString "name" ++ ':' :: (encodeString d.Name ++ '}' :: rest)))) := by
  have e1 : encodeString "displayName" = "\"displayName\"".data := by decide
  have e2 : encodeString "name" = "\"name\"".data := by decide
  rw [e1, e2]
  simp [encodeDashboard, List.append_assoc]

/-- Reading an object whose first member starts right after the brace. -/
theorem parseValue_object (fuel depth : Nat) (key : String) (t : List Char)
    (hd : depth < maxNestingDepth) :
    parseValue (fuel + 1) depth ('{' :: (encodeString key ++ t)) =
      (parseMembers fuel (depth + 1) (encodeString key ++ t)).map
        fun p => (Json.obj p.1, p.2) := by
  rw [encodeString_append, parseValue]
  have hws : skipWs ('{' :: '"' :: (key.data.flatMap encodeChar ++ '"' :: t)) =
      '{' :: '"' :: (key.data.flatMap encodeChar ++ '"' :: t) := rfl
  have hws2 : skipWs ('"' :: (key.data.flatMap encodeChar ++ '"' :: t)) =
      '"' :: (key.data.flatMap encodeChar ++ '"' :: t) := rfl
  have h1 : ¬ ('{' = '"') := by decide
  have h2 : ¬ ('{' = '[') := by decide
  have h3 : ¬ ('"' = '}') := by decide
  have h4 : ¬ (maxNestingDepth ≤ depth) := by omega
  simp only [hws, hws2, h1, h2, h3, h4, if_false, if_true]

/-- Reading a written entry gives its object. -/
theorem parseValue_encodeDashboard (fuel depth : Nat) (d : Dashboard) (rest : List Char)
    (hd : depth < maxNestingDepth) :
    parseValue (fuel + 4) depth (encodeDashboard d ++ rest) = some (entryJson d, rest) := by
  have hname : parseValue (fuel + 1) (depth + 1) (encodeString d.Name ++ '}' :: rest) =
      some (Json.str d.Name, '}' :: rest) := parseValue_string fuel (depth + 1) d.Name _
  have hlast := parseMembers_last (fuel + 1) (depth + 1) "name" _ rest _ hname
  have hdisp : parseValue (fuel + 2) (depth + 1) (encodeString d.DisplayName ++ ',' ::
      (encodeString "name" ++ ':' :: (encodeString d.Name ++ '}' :: rest))) =
      some (Json.str d.DisplayName, ',' ::
        (encodeString "name" ++ ':' :: (encodeString d.Name ++ '}' :: rest))) :=
    parseValue_string (fuel + 1) (depth + 1) d.DisplayName _
  have hmore := parseMembers_more (fuel + 2) (depth + 1) "displayName" _ _ _ hdisp
  rw [hlast] at hmore
  rw [encodeDashboard_append, parseValue_object _ _ _ _ hd, hmore]
  rfl

/-- Reading the last element of an array. -/
theorem parseElems_last (fuel depth : Nat) (t rest : List Char) (v : Json)
    (hv : parseValue fuel depth t = some (v, ']' :: rest)) :
    parseElems (fuel + 1) depth t = some ([v], rest) := by
  rw [parseElems]
  have hws : skipWs (']' :: rest) = ']' :: rest := rfl
  have hc : ¬ (']' = ',') := by decide
  simp only [hv, hws, hc, if_false, if_true]

/-- Reading an element of an array that is followed by a comma. -/
theorem parseElems_more (fuel depth : Nat) (t rest : List Char) (v : Json)
    (hv : parseValue fuel depth t = some (v, ',' :: rest)) :
    parseElems (fuel + 1) depth t =
      (parseElems fuel depth rest).map fun p => (v :: p.1, p.2) := by
  rw [parseElems]
  have hws : skipWs (',' :: rest) = ',' :: rest := rfl
  simp only [hv, hws, if_true]

/-- Reading the written entries of an array up to its closing bracket. -/
theorem parseElems_encoded (ds : List Dashboard) (d : Dashboard) (fuel depth : Nat)
    (h : ds.length + 4 ≤ fuel) (hd : depth < maxNestingDepth) :
    parseElems (fuel + 1) depth (encodeDashboard d ++ encodeTail ds) =
      some (entryJson d :: ds.map entryJson, []) := by
  induction ds generalizing d fuel with
  | nil =>
    obtain ⟨g, rfl⟩ : ∃ g, fuel = g + 4 := ⟨fuel - 4, by simp at h; omega⟩
    exact parseElems_last (g + 4) depth _ [] _ (parseValue_encodeDashboard g depth d _ hd)
  | cons e es ih =>
    obtain ⟨g, rfl⟩ : ∃ g, fuel = g + 4 := ⟨fuel - 4, by simp at h; omega⟩
    have hv : parseValue (g + 4) depth (encodeDashboard d ++ encodeTail (e :: es)) =
        some (entryJson d, ',' :: (encodeDashboard e ++ encodeTail es)) :=
      parseValue_encodeDashboard g depth d _ hd
    rw [parseElems_more (g + 4) depth _ _ _ hv]
    have hg : es.length + 4 ≤ g + 3 := by simp at h; omega
    rw [ih e (g + 3) hg]
    rfl

theorem encodeTail_length (ds : List Dashboard) : ds.length < (encodeTail ds).length := by
  induction ds with
  | nil => simp [encodeTail]
  | cons d rest ih =>
    simp only [encodeTail, List.length_cons, List.length_append]
    omega

/-- Reading an array whose first element is an object. -/
theorem parseValue_array (fuel depth : Nat) (t : List Char) (hd : depth < maxNestingDepth) :
    parseValue (fuel + 1) depth ('[' :: '{' :: t) =
      (parseElems fuel (depth + 1) ('{' :: t)).map fun p => (Json.arr p.1, p.2) := by
  rw [parseValue]
  have hws : skipWs ('[' :: '{' :: t) = '[' :: '{' :: t := rfl
  have hws2 : skipWs ('{' :: t) = '{' :: t := rfl
  have h1 : ¬ ('[' = '"') := by decide
  have h3 : ¬ ('{' = ']') := by decide
  have h4 : ¬ (maxNestingDepth ≤ depth) := by omega
  simp only [hws, hws2, h1, h3, h4, if_false, if_true]

/-- The written cache parses to the array of the entries as objects. -/
theorem parseJson_encodeDashboards (l : List Dashboard) :
    parseJson (encodeDashboards l).data = some (Json.arr (l.map entryJson)) := by
  cases l with
  | nil => rfl
  | cons d ds =>
    have hshape : encodeDashboard d ++ encodeTail ds =
        '{' :: (encodeString "displayName" ++ ':' :: (encodeString d.DisplayName ++ ',' ::
          (encodeString "name" ++ ':' :: (encodeString d.Name ++ '}' :: encodeTail ds)))) :=
      encodeDashboard_append d _
    have hlen := encodeTail_length ds
    simp only [encodeDashboards, parseJson]
    obtain ⟨g, hg, hge⟩ : ∃ g, 2 * ('[' :: (encodeDashboard d ++ encodeTail ds)).length + 2
        = g + 1 + 1 ∧ ds.length + 4 ≤ g := by
      refine ⟨2 * ('[' :: (encodeDashboard d ++ encodeTail ds)).length, rfl, ?_⟩
      rw [hshape]
      simp only [List.length_cons, List.length_append]
      omega
    rw [hg]
    have hel := parseElems_encoded ds d g 1 hge (by decide)
    rw [hshape] at hel ⊢
    rw [parseValue_array _ _ _ (by decide), hel]
    rfl

theorem decodeElem_entryJson (d : Dashboard) :
    decodeElem (entryJson d) = some ⟨d.DisplayName, d.Name, false⟩ := rfl

/-! ## The fuel of the reader is enough -/

theorem skipWs_length_le (s : List Char) : (skipWs s).length ≤ s.length := by
  induction s with
  | nil => simp [skipWs]
  | cons c rest ih =>
    simp only [skipWs]
    split
    · simp only [List.length_cons]; omega
    · simp

theorem lowSurrogate_length (s rest : List Char) (lo : Nat)
    (h : lowSurrogate s = some (lo, rest)) : rest.length < s.length := by
  unfold lowSurrogate at h
  split at h
  · split at h
    · split at h
      · split at h
        · simp only [Option.some.injEq, Prod.mk.injEq] at h
          rw [← h.2]
          simp only [List.length_cons]
          omega
        · exact absurd h (by simp)
      · exact absurd h (by simp)
    · exact absurd h (by simp)
  · exact absurd h (by simp)

theorem map_cons_eq_some {x : Option (List Char × List Char)} {c : Char}
    {t rest : List Char} (h : x.map (fun p => (c :: p.1, p.2)) = some (t, rest)) :
    ∃ t2, x = some (t2, rest) := by
  cases x with
  | none => simp at h
  | some p =>
    simp only [Option.map_some', Option.some.injEq, Prod.mk.injEq] at h
    exact ⟨p.1, by rw [← h.2]⟩

/-- Reading a string body consumes at least the closing quote. -/
theorem parseStringBody_length (fuel : Nat) (s t rest : List Char)
    (h : parseStringBody fuel s = some (t, rest)) : rest.length < s.length := by
  induction fuel generalizing s t with
  | zero => simp [parseStringBody] at h
  | succ f ih =>
    cases s with
    | nil => simp [parseStringBody] at h
    | cons c r =>
      simp only [parseStringBody] at h
      split at h
      · simp only [Option.some.injEq, Prod.mk.injEq] at h
        rw [← h.2]; simp
      · split at h
        · split at h
          · exact absurd h (by simp)
          · split at h
            · split at h
              · split at h
                · exact absurd h (by simp)
                · split at h
                  · split at h
                    · next hlow =>
                      obtain ⟨t2, ht⟩ := map_cons_eq_some h
                      have h1 := ih _ _ ht
                      split at hlow
                      · have h2 := lowSurrogate_length _ _ _ hlow
                        simp only [List.length_cons]; omega
                      · exact absurd hlow (by simp)
                    · obtain ⟨t2, ht⟩ := map_cons_eq_some h
                      have h1 := ih _ _ ht
                      simp only [List.length_cons]; omega
                  · obtain ⟨t2, ht⟩ := map_cons_eq_some h
                    have h1 := ih _ _ ht
                    simp only [List.length_cons]; omega
              · exact absurd h (by simp)
            · split at h
              · obtain ⟨t2, ht⟩ := map_cons_eq_some h
                have h1 := ih _ _ ht
                simp only [List.length_cons]; omega
              · exact absurd h (by simp)
        · split at h
          · exact absurd h (by simp)
          · obtain ⟨t2, ht⟩ := map_cons_eq_some h
            have h1 := ih _ _ ht
            simp only [List.length_cons]; omega

/-- The fuel of the string reader is enough: a string literal found with
some fuel is found with every fuel of at least the number of characters it
takes. -/
theorem parseStringBody_fuel (fuel : Nat) (s t rest : List Char)
    (h : parseStringBody fuel s = some (t, rest)) (g : Nat)
    (hg : s.length - rest.length ≤ g) : parseStringBody g s = some (t, rest) := by
  induction fuel generalizing s t g with
  | zero => simp [parseStringBody] at h
  | succ f ih =>
    have hlt := parseStringBody_length _ _ _ _ h
    obtain ⟨g2, rfl⟩ : ∃ g2, g = g2 + 1 := ⟨g - 1, by omega⟩
    cases s with
    | nil => simp [parseStringBody] at h
    | cons c r =>
      simp only [parseStringBody] at h ⊢
      simp only [List.length_cons] at hg hlt
      split at h
      · next hc => simp only [hc, if_true]; exact h
      · next hc =>
        simp only [hc, if_false]
        split at h
        · next hc2 =>
          simp only [hc2, if_true]
          split at h
          · exact absurd h (by simp)
          · next e r2 =>
            simp only [List.length_cons] at hg hlt
            split at h
            · next he =>
              simp only [he, if_true]
              split at h
              · next a b c2 d r3 =>
                simp only [List.length_cons] at hg hlt
                split at h
                · exact absurd h (by simp)
                · next n hn =>
                  split at h
                  · next hsur =>
                    simp only [hsur, if_true]
                    split at h
                    · next lo r4 hlow =>
                      obtain ⟨t2, ht⟩ := map_cons_eq_some h
                      have h1 := parseStringBody_length _ _ _ _ ht
                      have h2 : r4.length < r3.length := by
                        split at hlow
                        · exact lowSurrogate_length _ _ _ hlow
                        · exact absurd hlow (by simp)
                      rw [ht] at h
                      rw [ih r4 t2 ht g2 (by omega)]
                      exact h
                    · next hlow =>
                      obtain ⟨t2, ht⟩ := map_cons_eq_some h
                      have h1 := parseStringBody_length _ _ _ _ ht
                      rw [ht] at h
                      rw [ih r3 t2 ht g2 (by omega)]
                      exact h
                  · next hsur =>
                    simp only [hsur, if_false]
                    obtain ⟨t2, ht⟩ := map_cons_eq_some h
                    have h1 := parseStringBody_length _ _ _ _ ht
                    rw [ht] at h
                    rw [ih r3 t2 ht g2 (by omega)]
                    exact h
              · exact absurd h (by simp)
            · next he =>
              simp only [he, if_false]
              split at h
              · next x hx =>
                obtain ⟨t2, ht⟩ := map_cons_eq_some h
                have h1 := parseStringBody_length _ _ _ _ ht
                rw [ht] at h
                rw [ih r2 t2 ht g2 (by omega)]
                exact h
              · exact absurd h (by simp)
        · next hc2 =>
          simp only [hc2, if_false]
          split at h
          · exact absurd h (by simp)
          · next hc3 =>
            simp only [hc3, if_false]
            obtain ⟨t2, ht⟩ := map_cons_eq_some h
            have h1 := parseStringBody_length _ _ _ _ ht
            rw [ht] at h
            rw [ih r t2 ht g2 (by omega)]
            exact h

theorem spanDigits_length (s : List Char) : (spanDigits s).2.length ≤ s.length := by
  induction s with
  | nil => simp [spanDigits]
  | cons c rest ih =>
    simp only [spanDigits]
    split
    · simp only [List.length_cons]; omega
    · simp

theorem spanDigits_eq_length (s ds rest : List Char) (h : spanDigits s = (ds, rest)) :
    rest.length ≤ s.length := by
  have := spanDigits_length s
  rw [h] at this
  exact this

theorem parseInt_length (s i rest : List Char) (h : parseInt s = some (i, rest)) :
    rest.length < s.length := by
  cases s with
  | nil => simp [parseInt] at h
  | cons c r =>
    simp only [parseInt] at h
    split at h
    · simp only [Option.some.injEq, Prod.mk.injEq] at h
      rw [← h.2]; simp
    · split at h
      · simp only [Option.some.injEq, Prod.mk.injEq] at h
        have := spanDigits_length r
        rw [← h.2]; simp only [List.length_cons]; omega
      · exact absurd h (by simp)

theorem parseFrac_length (s f rest : List Char) (h : parseFrac s = some (f, rest)) :
    rest.length ≤ s.length := by
  cases s with
  | nil =>
    simp only [parseFrac, Option.some.injEq, Prod.mk.injEq] at h
    rw [← h.2]
  | cons c r =>
    simp only [parseFrac] at h
    split at h
    · split at h
      · exact absurd h (by simp)
      · next hsp =>
        simp only [Option.some.injEq, Prod.mk.injEq] at h
        have := spanDigits_eq_length _ _ _ hsp
        rw [← h.2]; simp only [List.length_cons]; omega
    · simp only [Option.some.injEq, Prod.mk.injEq] at h
      rw [← h.2]

theorem parseExp_length (s e rest : List Char) (h : parseExp s = some (e, rest)) :
    rest.length ≤ s.length := by
  cases s with
  | nil =>
    simp only [parseExp, Option.some.injEq, Prod.mk.injEq] at h
    rw [← h.2]
  | cons c r =>
    simp only [parseExp] at h
    split at h
    · split at h
      · exact absurd h (by simp)
      · split at h
        · split at h
          · exact absurd h (by simp)
          · next hsp =>
            simp only [Option.some.injEq, Prod.mk.injEq] at h
            have := spanDigits_eq_length _ _ _ hsp
            rw [← h.2]; simp only [List.length_cons]; omega
        · split at h
          · exact absurd h (by simp)
          · next hsp =>
            simp only [Option.some.injEq, Prod.mk.injEq] at h
            have := spanDigits_eq_length _ _ _ hsp
            simp only [List.length_cons] at this
            rw [← h.2]; simp only [List.length_cons]; omega
    · simp only [Option.some.injEq, Prod.mk.injEq] at h
      rw [← h.2]

theorem stripWord_length (w s rest : List Char) (h : stripWord w s = some rest) :
    rest.length ≤ s.length := by
  induction w generalizing s with
  | nil =>
    simp only [stripWord, Option.some.injEq] at h
    rw [← h]
  | cons x xs ih =>
    cases s with
    | nil => simp [stripWord] at h
    | cons c r =>
      simp only [stripWord] at h
      split at h
      · have := ih r h
        simp only [List.length_cons]; omega
      · exact absurd h (by simp)

theorem parseNumber_length (s t rest : List Char) (h : parseNumber s = some (t, rest)) :
    rest.length < s.length := by
  have hbody : ∀ (u i rest2 : List Char),
      (match parseInt u with
        | none => none
        | some (i, r1) =>
          match parseFrac r1 with
          | none => none
          | some (f, r2) =>
            match parseExp r2 with
            | none => none
            | some (e, r3) => some (i ++ f ++ e, r3)) = some (i, rest2) →
      rest2.length < u.length := by
    intro u i rest2 hb
    split at hb
    · exact absurd hb (by simp)
    · next hi =>
      split at hb
      · exact absurd hb (by simp)
      · next hf =>
        split at hb
        · exact absurd hb (by simp)
        · next he =>
          simp only [Option.some.injEq, Prod.mk.injEq] at hb
          have h1 := parseInt_length _ _ _ hi
          have h2 := parseFrac_length _ _ _ hf
          have h3 := parseExp_length _ _ _ he
          rw [← hb.2]; omega
  cases s with
  | nil => simp [parseNumber] at h
  | cons c r =>
    simp only [parseNumber] at h
    split at h
    · cases hb : (match parseInt r with
        | none => none
        | some (i, r1) =>
          match parseFrac r1 with
          | none => none
          | some (f, r2) =>
            match parseExp r2 with
            | none => none
            | some (e, r3) => some (i ++ f ++ e, r3)) with
      | none => rw [hb] at h; simp at h
      | some p =>
        rw [hb] at h
        simp only [Option.map_some', Option.some.injEq, Prod.mk.injEq] at h
        have := hbody r p.1 p.2 hb
        rw [← h.2]; simp only [List.length_cons]; omega
    · exact hbody (c :: r) t rest h

theorem map_eq_some_snd {α β : Type} {x : Option (α × List Char)} {g : α → β}
    {v : β} {rest : List Char} (h : x.map (fun p => (g p.1, p.2)) = some (v, rest)) :
    ∃ a, x = some (a, rest) ∧ g a = v := by
  cases x with
  | none => simp at h
  | some p =>
    simp only [Option.map_some', Option.some.injEq, Prod.mk.injEq] at h
    exact ⟨p.1, by rw [← h.2], h.1⟩

/-- A successful read with any fuel consumes input and is found again with
every fuel of at least twice the number of characters consumed. -/
theorem parse_fuel (f : Nat) :
    (∀ k s v rest, parseValue f k s = some (v, rest) →
      rest.length < s.length ∧
      ∀ g, 2 * (s.length - rest.length) ≤ g → parseValue g k s = some (v, rest)) ∧
    (∀ k s vs rest, parseElems f k s = some (vs, rest) →
      rest.length < s.length ∧
      ∀ g, 2 * (s.length - rest.length) + 1 ≤ g → parseElems g k s = some (vs, rest)) ∧
    (∀ k s ms rest, parseMembers f k s = some (ms, rest) →
      rest.length < s.length ∧
      ∀ g, 2 * (s.length - rest.length) + 1 ≤ g → parseMembers g k s = some (ms, rest)) := by
  induction f with
  | zero =>
    refine ⟨?_, ?_, ?_⟩
    · intro k s v rest h; simp [parseValue] at h
    · intro k s v rest h; simp [parseElems] at h
    · intro k s v rest h; simp [parseMembers] at h
  | succ f ih =>
    obtain ⟨ihv, ihe, ihm⟩ := ih
    refine ⟨?_, ?_, ?_⟩
    · intro k s v rest h
      rw [parseValue] at h
      cases hsk : skipWs s with
      | nil => rw [hsk] at h; simp at h
      | cons c r =>
        have hlen := skipWs_length_le s
        rw [hsk] at hlen h
        simp only [List.length_cons] at hlen
        simp only at h
        split at h
        · next hc =>
          obtain ⟨a, ha, hv⟩ :=
            @map_eq_some_snd _ _ _ (fun a => Json.str (String.mk a)) _ _ h
          have hl := parseStringBody_length _ _ _ _ ha
          refine ⟨by omega, ?_⟩
          intro g hg
          obtain ⟨g2, rfl⟩ : ∃ g2, g = g2 + 1 := ⟨g - 1, by omega⟩
          rw [parseValue, hsk]
          simp only [hc, if_true]
          exact h
        · next hc =>
          split at h
          · next hc2 =>
            split at h
            · exact absurd h (by simp)
            · next hdepth =>
              split at h
              · exact absurd h (by simp)
              · next c2 r2 hsk2 =>
                have hl2 := skipWs_length_le r
                rw [hsk2] at hl2
                simp only [List.length_cons] at hl2
                split at h
                · next hc3 =>
                  simp only [Option.some.injEq, Prod.mk.injEq] at h
                  obtain ⟨hv, hr⟩ := h
                  subst hr
                  refine ⟨by omega, ?_⟩
                  intro g hg
                  obtain ⟨g2, rfl⟩ : ∃ g2, g = g2 + 1 := ⟨g - 1, by omega⟩
                  rw [parseValue, hsk]
                  simp only [hc, if_false]
                  simp only [hc2, if_true, hdepth, if_false, hsk2, hc3, hv]
                · next hc3 =>
                  obtain ⟨a, ha, hv⟩ := @map_eq_some_snd _ _ _ (fun a => Json.arr a) _ _ h
                  obtain ⟨hl, hgen⟩ := ihe (k + 1) r a rest ha
                  refine ⟨by omega, ?_⟩
                  intro g hg
                  obtain ⟨g2, rfl⟩ : ∃ g2, g = g2 + 1 := ⟨g - 1, by omega⟩
                  rw [parseValue, hsk]
                  simp only [hc, if_false]
                  simp only [hc2, if_true, hdepth, hsk2, hc3, if_false]
                  rw [hgen g2 (by omega)]
                  simp only [Option.map_some', hv]
          · next hc2 =>
            split at h
            · next hc4 =>
              split at h
              · exact absurd h (by simp)
              · next hdepth =>
                split at h
                · exact absurd h (by simp)
                · next c2 r2 hsk2 =>
                  have hl2 := skipWs_length_le r
                  rw [hsk2] at hl2
                  simp only [List.length_cons] at hl2
                  split at h
                  · next hc3 =>
                    simp only [Option.some.injEq, Prod.mk.injEq] at h
                    obtain ⟨hv, hr⟩ := h
                    subst hr
                    refine ⟨by omega, ?_⟩
                    intro g hg
                    obtain ⟨g2, rfl⟩ : ∃ g2, g = g2 + 1 := ⟨g - 1, by omega⟩
                    rw [parseValue, hsk]
                    simp only [hc, hc2, if_false]
                    simp only [hc4, if_true, hdepth, if_false, hsk2, hc3, hv]
                  · next hc3 =>
                    obtain ⟨a, ha, hv⟩ := @map_eq_some_snd _ _ _ (fun a => Json.obj a) _ _ h
                    obtain ⟨hl, hgen⟩ := ihm (k + 1) r a rest ha
                    refine ⟨by omega, ?_⟩
                    intro g hg
                    obtain ⟨g2, rfl⟩ : ∃ g2, g = g2 + 1 := ⟨g - 1, by omega⟩
                    rw [parseValue, hsk]
                    simp only [hc, hc2, if_false]
                    simp only [hc4, if_true, hdepth, hsk2, hc3, if_false]
                    rw [hgen g2 (by omega)]
                    simp only [Option.map_some', hv]
            · next hc4 =>
              have hrest : rest.length ≤ r.length := by
                split at h
                · cases hw : stripWord ['r', 'u', 'e'] r with
                  | none => rw [hw] at h; simp at h
                  | some r1 =>
                    rw [hw] at h
                    simp only [Option.map_some', Option.some.injEq, Prod.mk.injEq] at h
                    rw [← h.2]; exact stripWord_length _ _ _ hw
                · split at h
                  · cases hw : stripWord ['a', 'l', 's', 'e'] r with
                    | none => rw [hw] at h; simp at h
                    | some r1 =>
                      rw [hw] at h
                      simp only [Option.map_some', Option.some.injEq, Prod.mk.injEq] at h
                      rw [← h.2]; exact stripWord_length _ _ _ hw
                  · split at h
                    · cases hw : stripWord ['u', 'l', 'l'] r with
                      | none => rw [hw] at h; simp at h
                      | some r1 =>
                        rw [hw] at h
                        simp only [Option.map_some', Option.some.injEq, Prod.mk.injEq] at h
                        rw [← h.2]; exact stripWord_length _ _ _ hw
                    · obtain ⟨a, ha, hv⟩ := @map_eq_some_snd _ _ _ (fun a => Json.num a) _ _ h
                      have := parseNumber_length _ _ _ ha
                      simp only [List.length_cons] at this
                      omega
              refine ⟨by omega, ?_⟩
              intro g hg
              obtain ⟨g2, rfl⟩ : ∃ g2, g = g2 + 1 := ⟨g - 1, by omega⟩
              rw [parseValue, hsk]
              simp only [hc, hc2, hc4, if_false]
              exact h
    · intro k s vs rest h
      rw [parseElems] at h
      split at h
      · exact absurd h (by simp)
      · next v r1 hv =>
        obtain ⟨hl1, hgen1⟩ := ihv k s v r1 hv
        split at h
        · exact absurd h (by simp)
        · next c r2 hsk =>
          have hl2 := skipWs_length_le r1
          rw [hsk] at hl2
          simp only [List.length_cons] at hl2
          split at h
          · next hc =>
            obtain ⟨a, ha, hvs⟩ := @map_eq_some_snd _ _ _ (fun a => v :: a) _ _ h
            obtain ⟨hl3, hgen3⟩ := ihe k r2 a rest ha
            refine ⟨by omega, ?_⟩
            intro g hg
            obtain ⟨g2, rfl⟩ : ∃ g2, g = g2 + 1 := ⟨g - 1, by omega⟩
            rw [parseElems, hgen1 g2 (by omega)]
            simp only [hsk, hc, if_true]
            rw [hgen3 g2 (by omega)]
            simp only [Option.map_some', hvs]
          · next hc =>
            split at h
            · next hc2 =>
              simp only [Option.some.injEq, Prod.mk.injEq] at h
              obtain ⟨hvs, hr⟩ := h
              subst hr
              refine ⟨by omega, ?_⟩
              intro g hg
              obtain ⟨g2, rfl⟩ : ∃ g2, g = g2 + 1 := ⟨g - 1, by omega⟩
              rw [parseElems, hgen1 g2 (by omega)]
              simp only [hsk, hc, if_false]
              simp only [hc2, if_true, hvs]
            · exact absurd h (by simp)
    · intro k s ms rest h
      rw [parseMembers] at h
      split at h
      · exact absurd h (by simp)
      · next q r hsk =>
        have hl0 := skipWs_length_le s
        rw [hsk] at hl0
        simp only [List.length_cons] at hl0
        split at h
        · next hq =>
          split at h
          · exact absurd h (by simp)
          · next key r2 hkey =>
            have hlk := parseStringBody_length _ _ _ _ hkey
            split at h
            · exact absurd h (by simp)
            · next colon r3 hsk3 =>
              have hl3 := skipWs_length_le r2
              rw [hsk3] at hl3
              simp only [List.length_cons] at hl3
              split at h
              · next hcol =>
                split at h
                · exact absurd h (by simp)
                · next v r4 hv =>
                  obtain ⟨hl4, hgen4⟩ := ihv k r3 v r4 hv
                  split at h
                  · exact absurd h (by simp)
                  · next c r5 hsk5 =>
                    have hl5 := skipWs_length_le r4
                    rw [hsk5] at hl5
                    simp only [List.length_cons] at hl5
                    split at h
                    · next hc =>
                      obtain ⟨a, ha, hms⟩ :=
                        @map_eq_some_snd _ _ _ (fun a => (String.mk key, v) :: a) _ _ h
                      obtain ⟨hl6, hgen6⟩ := ihm k r5 a rest ha
                      refine ⟨by omega, ?_⟩
                      intro g hg
                      obtain ⟨g2, rfl⟩ : ∃ g2, g = g2 + 1 := ⟨g - 1, by omega⟩
                      rw [parseMembers]
                      simp only [hsk, hq, if_true, hkey, hsk3, hcol, hgen4 g2 (by omega), hsk5,
                        hc]
                      rw [hgen6 g2 (by omega)]
                      simp only [Option.map_some', hms]
                    · next hc =>
                      split at h
                      · next hc2 =>
                        simp only [Option.some.injEq, Prod.mk.injEq] at h
                        obtain ⟨hms, hr⟩ := h
                        subst hr
                        refine ⟨by omega, ?_⟩
                        intro g hg
                        obtain ⟨g2, rfl⟩ : ∃ g2, g = g2 + 1 := ⟨g - 1, by omega⟩
                        rw [parseMembers]
                        simp only [hsk, hq, if_true, hkey, hsk3, hcol, hgen4 g2 (by omega),
                          hsk5, hc, if_false]
                        simp only [hc2, if_true, hms]
                      · exact absurd h (by simp)
              · exact absurd h (by simp)
        · exact absurd h (by simp)

/-- The fuel `parseJson` starts with never runs out: it finds every document
that some amount of fuel finds. -/
theorem parseJson_iff (s : List Char) (v : Json) :
    parseJson s = some v ↔
      ∃ f rest, parseValue f 0 s = some (v, rest) ∧ skipWs rest = [] := by
  constructor
  · intro h
    unfold parseJson at h
    split at h
    · exact absurd h (by simp)
    · next w rest hw =>
      split at h
      · next hend =>
        simp only [Option.some.injEq] at h
        subst h
        exact ⟨_, rest, hw, hend⟩
      · exact absurd h (by simp)
  · rintro ⟨f, rest, hf, hend⟩
    obtain ⟨_, hgen⟩ := (parse_fuel f).1 0 s v rest hf
    unfold parseJson
    rw [hgen (2 * s.length + 2) (by omega)]
    simp only [hend]

/-- Whenever the run reaches the selector and the selection is cancelled,
`main` opens the first entry of the merged list. -/
theorem main_of_cancelled (c : Config) (w : World) (discovered : List (Option Dashboard))
    (ls : List String)
    (hsel : selectorInput c w = Result.returned (mergeDashboards discovered))
    (hl : labels (mergeDashboards discovered) = some ls)
    (hf : w.find ls = FindResult.cancelled) :
    ∃ d, (mergeDashboards discovered).head? = some (some d) ∧
      main c w = Outcome.opened (d.buildUrl c.projectId) := by
  cases discovered with
  | nil =>
    refine ⟨⟨"App Engine", "gae_application", true⟩, rfl, ?_⟩
    simp only [main, hsel, hl, hf, FindResult.index]
    rfl
  | cons e es =>
    cases e with
    | none => simp [mergeDashboards, labels] at hl
    | some d =>
      refine ⟨d, rfl, ?_⟩
      simp only [main, hsel, hl, hf, FindResult.index]
      rfl

/-! ## Claims -/

/-- C1: for a discovered entry whose identifier is `pre ++ "/" ++ seg` with
`seg` a non-empty run of ASCII letters, digits and hyphens, the pattern
extracts `"/" ++ seg` (the part from the last slash to the end) and `buildUrl`
returns the builder URL of `seg` for the project. -/
theorem buildUrl_discovered_segment (displayName pre seg p : String) (hne : seg ≠ "")
    (hseg : ∀ c ∈ seg.data, isIdChar c = true) :
    FindString r (pre ++ "/" ++ seg) = "/" ++ seg ∧
    (Dashboard.mk displayName (pre ++ "/" ++ seg) false).buildUrl p =
      "https://console.cloud.google.com/monitoring/dashboards/builder/" ++ seg
        ++ "?project=" ++ p := by
  have hfind : FindString r (pre ++ "/" ++ seg) = "/" ++ seg := by
    apply String.ext
    have hd : (pre ++ "/" ++ seg).data = pre.data ++ '/' :: seg.data := by
      simp [String.data_append]
    simp only [FindString, hd, findChars_r_segment pre.data seg.data (data_ne_nil seg hne) hseg]
    simp [String.data_append]
  refine ⟨hfind, ?_⟩
  simp only [Dashboard.buildUrl, hfind, Bool.false_eq_true, if_false]
  apply String.ext
  simp [String.data_append]

/-- Witness of C1: `projects/123/dashboards/abc-456` with project `demo`. -/
theorem buildUrl_discovered_segment_witness :
    ("abc-456" ≠ "" ∧ ∀ c ∈ "abc-456".data, isIdChar c = true) ∧
    (Dashboard.mk "My board" "projects/123/dashboards/abc-456" false).buildUrl "demo" =
      "https://console.cloud.google.com/monitoring/dashboards/builder/abc-456?project=demo" :=
  ⟨⟨by decide, by decide⟩,
    (buildUrl_discovered_segment "My board" "projects/123/dashboards" "abc-456" "demo"
      (by decide) (by decide)).2⟩

/-- C2: for a built-in entry `buildUrl` returns the resource-list URL with the
identifier inserted verbatim. -/
theorem buildUrl_default (d : Dashboard) (p : String) (hd : d.defaultDashboard = true) :
    d.buildUrl p =
      "https://console.cloud.google.com/monitoring/dashboards/resourceList/" ++ d.Name
        ++ "?project=" ++ p := by
  simp [Dashboard.buildUrl, hd]

/-- Witness of C2: `gce_instance` with project `demo`. -/
theorem buildUrl_default_witness :
    (Dashboard.mk "VM Instances" "gce_instance" true).defaultDashboard = true ∧
    (Dashboard.mk "VM Instances" "gce_instance" true).buildUrl "demo" =
      "https://console.cloud.google.com/monitoring/dashboards/resourceList/gce_instance?project=demo" :=
  ⟨rfl, buildUrl_default (Dashboard.mk "VM Instances" "gce_instance" true) "demo" rfl⟩

/-- C3: for a discovered entry whose identifier has no trailing segment of
a slash followed by one or more ASCII letters, digits or hyphens, the pattern
finds nothing and `buildUrl` returns the builder URL with nothing between
`builder` and `?`. -/
theorem buildUrl_discovered_no_segment (displayName name p : String)
    (h : ¬ ∃ pre seg : String, name = pre ++ "/" ++ seg ∧ seg ≠ "" ∧
      ∀ c ∈ seg.data, isIdChar c = true) :
    FindString r name = "" ∧
    (Dashboard.mk displayName name false).buildUrl p =
      "https://console.cloud.google.com/monitoring/dashboards/builder" ++ "?project=" ++ p := by
  have hfind : FindString r name = "" := by
    apply String.ext
    simp only [FindString]
    apply findChars_eq_nil
    intro pre t ht
    cases hm : matchHere r t with
    | none => rfl
    | some n =>
      exfalso
      obtain ⟨seg, hseg, hne, hid⟩ := matchHere_r_some t n hm
      apply h
      refine ⟨String.mk pre, String.mk seg, ?_, ?_, hid⟩
      · apply String.ext
        simp [String.data_append, ht, hseg]
      · intro hs
        apply hne
        have := congrArg String.data hs
        simpa using this
  refine ⟨hfind, ?_⟩
  simp only [Dashboard.buildUrl, hfind, Bool.false_eq_true, if_false]
  apply String.ext
  simp [String.data_append]

/-- Witness of C3: the identifier `projects/123/dashboards/`, which ends in a
slash. -/
theorem buildUrl_discovered_no_segment_witness :
    (¬ ∃ pre seg : String, "projects/123/dashboards/" = pre ++ "/" ++ seg ∧ seg ≠ "" ∧
      ∀ c ∈ seg.data, isIdChar c = true) ∧
    (Dashboard.mk "My board" "projects/123/dashboards/" false).buildUrl "demo" =
      "https://console.cloud.google.com/monitoring/dashboards/builder?project=demo" :=
  ⟨no_segment_of_cases "projects/123/dashboards/"
      (Or.inr ⟨"projects/123/dashboards", "", by decide, by decide, Or.inl rfl⟩),
    (buildUrl_discovered_no_segment "My board" "projects/123/dashboards/" "demo"
      (no_segment_of_cases "projects/123/dashboards/"
        (Or.inr ⟨"projects/123/dashboards", "", by decide, by decide, Or.inl rfl⟩))).2⟩

/-- C4: `callGetCache` is true exactly when the force flag is set or the stat
of the cache file reports that it does not exist. -/
theorem callGetCache_iff (c : Config) (stat : String → StatResult) :
    callGetCache c stat = true ↔
      (c.updateCache = true ∨ stat (getCacheFilePath c) = StatResult.notExist) := by
  unfold callGetCache
  cases hu : c.updateCache <;> cases hs : stat (getCacheFilePath c) <;> simp

/-- C5: the slice handed to the selector is the discovered entries, in their
order, followed by the 15 built-in entries in declaration order, App Engine
first and VM Instances last; nothing is dropped and the length is the number
of discovered entries plus 15. -/
theorem selectorInput_eq (c : Config) (w : World) (discovered : List (Option Dashboard))
    (hrefresh : (callGetCache c w.stat && !getCache c w) = false)
    (hload : getDashboards c w.readFile = Result.returned discovered) :
    selectorInput c w = Result.returned (discovered ++ defaultDashboards.map some) ∧
    (discovered ++ defaultDashboards.map some).length = discovered.length + 15 ∧
    defaultDashboards.map Dashboard.DisplayName =
      ["App Engine", "BigQuery", "Cloud Spanner", "Cloud SQL", "Cloud Strage", "Dataflow",
        "Disks", "External HTTP(S) Load Balancers", "Firewalls", "GKE",
        "Google Cloud Load Balancers", "Infrastructure Summary", "Network Security Policies",
        "Pub/Sub", "VM Instances"] := by
  refine ⟨?_, ?_, by decide⟩
  · simp [selectorInput, hrefresh, hload, mergeDashboards]
  · simp [defaultDashboards]

/-- Witness of C5: a cache of one entry whose display name is that of a
built-in one; both are kept. -/
theorem selectorInput_eq_witness :
    selectorInput ⟨"/home/u", "demo", false⟩
      (sampleWorld "[\x7b\"displayName\":\"Disks\",\"name\":\"projects/1/dashboards/d\"\x7d]"
        (FindResult.chosen 0)) =
      Result.returned
        ([some ⟨"Disks", "projects/1/dashboards/d", false⟩] ++ defaultDashboards.map some) :=
  (selectorInput_eq ⟨"/home/u", "demo", false⟩
    (sampleWorld "[\x7b\"displayName\":\"Disks\",\"name\":\"projects/1/dashboards/d\"\x7d]"
      (FindResult.chosen 0))
    [some ⟨"Disks", "projects/1/dashboards/d", false⟩] (by decide) (by decide)).1

/-- C6, at a cache file that is not JSON: `json.Unmarshal` reports an error,
yet `getDashboards` returns (the empty list) instead of ending the program;
it returns for every content that could be read, and ends the program only
when the file could not be read. -/
theorem getDashboards_malformed :
    unmarshalFails "not json" = true ∧
    getDashboards ⟨"/home/u", "demo", false⟩ (sampleWorld "not json" FindResult.cancelled).readFile
      = Result.returned [] ∧
    (∀ (c : Config) (readFile : String → Option String) (f : String),
      readFile (getCacheFilePath c) = some f →
        getDashboards c readFile = Result.returned (unmarshalDashboards f)) ∧
    ∀ (c : Config) (readFile : String → Option String),
      readFile (getCacheFilePath c) = none → getDashboards c readFile = Result.fatal := by
  refine ⟨by decide, by decide, ?_, ?_⟩
  · intro c readFile f h
    simp [getDashboards, h]
  · intro c readFile h
    simp [getDashboards, h]

/-- C7, at a cache of one entry and a cancelled selection: `main` still calls
`Open`, on the entry at index 0. -/
theorem main_cancelled_opens :
    main ⟨"/home/u", "demo", false⟩
      (sampleWorld
        "[\x7b\"displayName\":\"My board\",\"name\":\"projects/123/dashboards/abc-456\"\x7d]"
        FindResult.cancelled) =
      Outcome.opened
        "https://console.cloud.google.com/monitoring/dashboards/builder/abc-456?project=demo" := by
  decide

/-- C8 as stated fails: a cache entry without the field `displayName` is
decoded with an empty display name and is part of the merged list. -/
theorem displayName_empty_counterexample :
    getDashboards ⟨"/home/u", "demo", false⟩
      (sampleWorld "[\x7b\"name\":\"projects/1/dashboards/x\"\x7d]" (FindResult.chosen 0)).readFile
      = Result.returned [some ⟨"", "projects/1/dashboards/x", false⟩] ∧
    ¬ ∀ d : Dashboard, some d ∈ mergeDashboards [some ⟨"", "projects/1/dashboards/x", false⟩] →
      d.DisplayName ≠ "" := by
  refine ⟨by decide, ?_⟩
  intro h
  exact h ⟨"", "projects/1/dashboards/x", false⟩ (by simp [mergeDashboards]) rfl

/-- C8, amended: whatever the cache file holds, each of the 15 built-in
entries is in the merged list with a non-empty display name, and an entry of
the merged list carrying the built-in flag is one of them.  A discovered
entry decoded from an object of the cache array sits at the position of that
object, in the discovered and in the merged list, and its display name is
the string value of the last member of the object whose key is `displayName`
up to letter case, and the empty string when the object has no such member
with a string value. -/
theorem displayName_of_cache (c : Config) (readFile : String → Option String)
    (discovered : List (Option Dashboard))
    (h : getDashboards c readFile = Result.returned discovered) :
    (∀ d ∈ defaultDashboards, some d ∈ mergeDashboards discovered ∧ d.DisplayName ≠ "") ∧
    (∀ d : Dashboard, some d ∈ mergeDashboards discovered → d.defaultDashboard = true →
      d ∈ defaultDashboards ∧ d.DisplayName ≠ "") ∧
    ∃ f, readFile (getCacheFilePath c) = some f ∧
      ∀ items, parseJson f.data = some (Json.arr items) →
        discovered.length = items.length ∧
        ∀ i ms, items.get? i = some (Json.obj ms) →
          ∃ d, discovered.get? i = some (some d) ∧
            (mergeDashboards discovered).get? i = some (some d) ∧
            d.DisplayName = cacheDisplayName ms ∧
            ((∀ m ∈ ms, displayNameValue m = none) → d.DisplayName = "") := by
  have hdef : ∀ d ∈ defaultDashboards, d.DisplayName ≠ "" := by decide
  unfold getDashboards at h
  cases hr : readFile (getCacheFilePath c) with
  | none => simp [hr] at h
  | some f =>
    simp only [hr, Result.returned.injEq] at h
    refine ⟨?_, ?_, f, rfl, ?_⟩
    · intro d hd
      refine ⟨?_, hdef d hd⟩
      simp only [mergeDashboards, List.mem_append, List.mem_map]
      exact Or.inr ⟨d, hd, rfl⟩
    · intro d hd hflag
      simp only [mergeDashboards, List.mem_append, List.mem_map] at hd
      rcases hd with hd | ⟨e, he, hed⟩
      · exfalso
        rw [← h] at hd
        have := unmarshalDashboards_flag f d hd
        rw [hflag] at this
        exact Bool.noConfusion this
      · cases hed
        exact ⟨he, hdef d he⟩
    · intro items hp
      have hdisc : discovered = items.map decodeElem := by
        rw [← h]
        simp only [unmarshalDashboards, hp, decodeDashboards]
      refine ⟨by rw [hdisc, List.length_map], ?_⟩
      intro i ms hi
      obtain ⟨d, hd, hname⟩ := decodeElem_obj_displayName ms
      have hget : discovered.get? i = some (some d) := by
        rw [List.get?_eq_getElem?] at hi ⊢
        rw [hdisc, List.getElem?_map, hi, Option.map_some', hd]
      have hlt : i < discovered.length := by
        rw [List.get?_eq_getElem?] at hget
        by_contra hge
        rw [List.getElem?_eq_none (by omega)] at hget
        exact absurd hget (by simp)
      refine ⟨d, hget, ?_, hname, ?_⟩
      · unfold mergeDashboards
        rw [List.get?_eq_getElem?] at hget ⊢
        rw [List.getElem?_append_left hlt, hget]
      · intro hnone
        rw [hname]
        have hnil : ms.filterMap displayNameValue = [] := by
          rw [List.filterMap_eq_nil_iff]
          exact hnone
        simp [cacheDisplayName, hnil]

/-- Witness of C8 amended: a cache of two objects, the first without a
display name, the second with two members supplying one. -/
theorem displayName_of_cache_witness :
    getDashboards ⟨"/home/u", "demo", false⟩
      (sampleWorld
        "[\x7b\"name\":\"projects/1/dashboards/x\"\x7d,\x7b\"displayName\":\"A\",\"DISPLAYNAME\":\"B\"\x7d]"
        (FindResult.chosen 0)).readFile
      = Result.returned [some ⟨"", "projects/1/dashboards/x", false⟩, some ⟨"B", "", false⟩] ∧
    ∀ d ∈ defaultDashboards,
      some d ∈ mergeDashboards
        [some ⟨"", "projects/1/dashboards/x", false⟩, some ⟨"B", "", false⟩] ∧
      d.DisplayName ≠ "" :=
  ⟨by decide,
    (displayName_of_cache ⟨"/home/u", "demo", false⟩
      (sampleWorld
        "[\x7b\"name\":\"projects/1/dashboards/x\"\x7d,\x7b\"displayName\":\"A\",\"DISPLAYNAME\":\"B\"\x7d]"
        (FindResult.chosen 0)).readFile
      [some ⟨"", "projects/1/dashboards/x", false⟩, some ⟨"B", "", false⟩] (by decide)).1⟩

/-- C10: the cache file path is the home directory, `/.cloudmonitoring_dig/`,
the project id and `/cache.json`; it is the cache directory followed by
`/cache.json`, and it does not depend on the force flag. -/
theorem getCacheFilePath_eq (h p : String) (u : Bool) :
    getCacheFilePath ⟨h, p, u⟩ = h ++ "/.cloudmonitoring_dig/" ++ p ++ "/cache.json" ∧
    getCacheFilePath ⟨h, p, u⟩ = getCacheDir ⟨h, p, u⟩ ++ "/cache.json" ∧
    getCacheDir ⟨h, p, u⟩ = h ++ "/.cloudmonitoring_dig/" ++ p := by
  refine ⟨?_, rfl, ?_⟩
  · apply String.ext
    simp [getCacheFilePath, getCacheDir, Config.baseDir, String.data_append]
  · apply String.ext
    simp [getCacheDir, Config.baseDir, String.data_append]

/-- C9: writing a list of entries as a JSON array of objects with the fields
`displayName` and `name` into the cache file and reading it back as
`getDashboards` does returns the entries in the same order with the same
display names and identifiers, each with the built-in flag off, whatever the
flag was. -/
theorem getDashboards_encodeDashboards (c : Config) (l : List Dashboard) :
    getDashboards c
        (fun path => if path = getCacheFilePath c then some (encodeDashboards l) else none) =
      Result.returned (l.map fun d => some ⟨d.DisplayName, d.Name, false⟩) := by
  simp only [getDashboards, if_true, unmarshalDashboards, parseJson_encodeDashboards,
    decodeDashboards, List.map_map]
  congr 1

end CloudMonitoringDig
